import Mathlib

/-!
Shallow embedding of the tutorial repository's object model and of the
relationship-loading / unit-of-work protocol that its scripts exercise
(src/06_1_working_with_orm_related_objects.py together with the schema
declarations of src/03_metadata.py).

The entity classes (User, Address) and the schema constraints are
translated from the source.  The session / unit-of-work operations and
the loader strategies are library features whose code is not part of the
repository; they are modelled from the spec, as marked on each
definition.
-/

/-- In-memory object identity: a reference to a Python object.  Two
distinct `ObjId`s are two distinct instances even when their attribute
values agree. -/
abbrev ObjId := Nat

/-- Modelled from the spec: the state machine of a relationship
attribute on an entity instance, with states unloaded, loading
(suspended pending fetch), loaded, and stale-after-commit.  The
attribute-instrumentation code is library internals absent from src. -/
inductive LoadState where
  | unloaded
  | loading
  | loaded
  | staleAfterCommit
deriving Repr, DecidableEq

/-- Translated from the source class `User` (06_1, lines 20-28):
surrogate integer key (absent until insert), name, optional fullname,
and the `addresses` collection holding references to owned Address
instances.  `addressesState` carries the loading state of the
`addresses` relationship attribute for this instance. -/
structure User where
  id : Option Nat
  name : String
  fullname : Option String
  addresses : List ObjId
  addressesState : LoadState
deriving Repr, DecidableEq

/-- Translated from the source class `Address` (06_1, lines 31-39):
surrogate integer key, email string, foreign-key value to the owning
user row, and the `user` back-reference to the owning User instance. -/
structure Address where
  id : Option Nat
  email_address : String
  user_id : Option Nat
  user : Option ObjId
deriving Repr, DecidableEq

/-- Association-list lookup by first component. -/
def lookupA {β : Type} (l : List (ObjId × β)) (o : ObjId) : Option β :=
  (l.find? (fun p => p.1 == o)).map (fun p => p.2)

/-- The in-memory object graph: the mapped instances the script holds,
keyed by object identity. -/
structure Graph where
  users : List (ObjId × User)
  addrs : List (ObjId × Address)
deriving Repr, DecidableEq

def Graph.user? (g : Graph) (o : ObjId) : Option User := lookupA g.users o

def Graph.addr? (g : Graph) (o : ObjId) : Option Address := lookupA g.addrs o

def Graph.updateUser (g : Graph) (o : ObjId) (f : User → User) : Graph :=
  { g with users := g.users.map (fun p => if p.1 == o then (p.1, f p.2) else p) }

/-- Value transformation applied to every User when address `a` is
linked to owner `u`: `a` is removed from every collection and appended
to `u`'s collection. -/
def linkUserFn (a u : ObjId) (o : ObjId) (v : User) : User :=
  if o == u then
    { v with addresses := v.addresses.filter (fun x => x != a) ++ [a] }
  else
    { v with addresses := v.addresses.filter (fun x => x != a) }

/-- Value transformation applied to every Address when address `a` is
linked to owner `u`: `a`'s back-reference is set to `u`. -/
def linkAddrFn (a u : ObjId) (o : ObjId) (v : Address) : Address :=
  if o == a then { v with user := some u } else v

/-- Modelled from the spec: reciprocal back-reference synchronisation.
The mapping layer keeps `User.addresses` and `Address.user` consistent:
one operation updates both sides (spec section 3 invariants and section
9, "setting one side of a relationship updates the other").  The
instrumentation performing this inside the library is not part of src. -/
def Graph.linkOwner (g : Graph) (a u : ObjId) : Graph :=
  { users := g.users.map (fun p => (p.1, linkUserFn a u p.1 p.2)),
    addrs := g.addrs.map (fun p => (p.1, linkAddrFn a u p.1 p.2)) }

/-- `u1.addresses.append(a1)` (06_1, line 52). -/
def Graph.appendAddress (g : Graph) (u a : ObjId) : Graph := g.linkOwner a u

/-- `a2.user = u1`, also the constructor keyword form
`Address(email_address=..., user=u1)` (06_1, lines 62-66). -/
def Graph.setAddressUser (g : Graph) (a u : ObjId) : Graph := g.linkOwner a u

/-- A committed row of table `user_account` (03_metadata, lines 30-36). -/
structure UserRow where
  id : Nat
  name : String
  fullname : Option String
deriving Repr, DecidableEq

/-- A committed row of table `address` (03_metadata, lines 51-57):
`user_id` is declared NOT NULL there, so a persisted row always carries
a concrete foreign-key value. -/
structure AddrRow where
  id : Nat
  email_address : String
  user_id : Nat
deriving Repr, DecidableEq

/-- One INSERT emitted during a flush, recording the in-memory instance
it persists, the generated key, and (for addresses) the foreign key. -/
inductive InsertOp where
  | insUser (obj : ObjId) (key : Nat)
  | insAddr (obj : ObjId) (key : Nat) (fk : Nat)
deriving Repr, DecidableEq

/-- Modelled from the spec: `commit()` signals a `TransactionError` on
failure (spec section 4.2). -/
structure TransactionError where
  msg : String
deriving Repr, DecidableEq

/-- Modelled from the spec: the unit-of-work session.  It tracks the
object graph, the working set of pending (attached, not yet flushed)
instances, the storage backend's rows, the identity maps from primary
key to in-memory instance, and the storage backend's key generators.
The library's Session internals are not part of src; only their callers
are (06_1, lines 74-90). -/
structure Session where
  graph : Graph
  pending : List ObjId
  dbUsers : List UserRow
  dbAddrs : List AddrRow
  imUsers : List (Nat × ObjId)
  imAddrs : List (Nat × ObjId)
  nextUserKey : Nat
  nextAddrKey : Nat
deriving Repr, DecidableEq

/-- Modelled from the spec: `attach(entity)` pulls in all entities
reachable via ownership edges (spec section 4.2; `session.add(u1)` at
06_1 line 78 attaches the related Address objects as well).  The only
ownership edge in the model is User -> each member of its `addresses`
collection. -/
def Session.add (s : Session) (o : ObjId) : Session :=
  let reach := o :: (((s.graph.user? o).map (fun uo => uo.addresses)).getD [])
  { s with pending := (s.pending ++ reach).dedup }

/-- Membership test of the unit-of-work scope (`u1 in session`, 06_1
lines 79-81). -/
def Session.memScope (s : Session) (o : ObjId) : Bool :=
  decide (o ∈ s.pending)

/-- The pending User instances, in attachment order, paired with their
current values. -/
def Session.pendingUserPairs (s : Session) : List (ObjId × User) :=
  s.pending.dedup.filterMap (fun o => (s.graph.user? o).map (fun uo => (o, uo)))

/-- The pending Address instances, in attachment order, paired with
their current values. -/
def Session.pendingAddrPairs (s : Session) : List (ObjId × Address) :=
  s.pending.dedup.filterMap (fun o => (s.graph.addr? o).map (fun ao => (o, ao)))

/-- First index at which a predicate holds. -/
def idxOfP {α : Type} (p : α → Bool) : List α → Option Nat
  | [] => none
  | x :: xs => if p x then some 0 else (idxOfP p xs).map (fun i => i + 1)

/-- Key the flush will generate for a pending User instance. -/
def Session.userKey (s : Session) (o : ObjId) : Option Nat :=
  (idxOfP (fun p => p.1 == o) s.pendingUserPairs).map (fun i => s.nextUserKey + i)

/-- Key the flush will generate for a pending Address instance. -/
def Session.addrKey (s : Session) (o : ObjId) : Option Nat :=
  (idxOfP (fun p => p.1 == o) s.pendingAddrPairs).map (fun i => s.nextAddrKey + i)

/-- Key a foreign-key reference to User instance `o` will resolve to:
the newly generated key when `o` is pending, otherwise its
already-persisted identifier. -/
def Session.refKey (s : Session) (o : ObjId) : Option Nat :=
  match s.userKey o with
  | some k => some k
  | none => (s.graph.user? o).bind (fun uo => uo.id)

/-- Foreign-key value the flush will store for Address instance `a`:
the resolved key of its owning user, when both exist. -/
def Session.addrFk (s : Session) (a : ObjId) : Option Nat :=
  (s.graph.addr? a).bind (fun ao => ao.user.bind (fun u => s.refKey u))

/-- Rows inserted for the pending users, keys generated sequentially. -/
def userRowsFrom : Nat → List (ObjId × User) → List UserRow
  | _, [] => []
  | k, p :: ps =>
    { id := k, name := p.2.name, fullname := p.2.fullname } :: userRowsFrom (k + 1) ps

/-- Rows inserted for the pending addresses, keys generated
sequentially, foreign keys resolved by `fk`. -/
def addrRowsFrom (fk : ObjId × Address → Nat) : Nat → List (ObjId × Address) → List AddrRow
  | _, [] => []
  | k, p :: ps =>
    { id := k, email_address := p.2.email_address, user_id := fk p } :: addrRowsFrom fk (k + 1) ps

/-- Identity-map entries for newly persisted instances: generated key
mapped to the in-memory instance it was generated for. -/
def imFrom : Nat → List ObjId → List (Nat × ObjId)
  | _, [] => []
  | k, o :: os => (k, o) :: imFrom (k + 1) os

/-- The user INSERTs of a flush, in working-set order. -/
def userLogFrom : Nat → List (ObjId × User) → List InsertOp
  | _, [] => []
  | k, p :: ps => InsertOp.insUser p.1 k :: userLogFrom (k + 1) ps

/-- The address INSERTs of a flush, in working-set order. -/
def addrLogFrom (fk : ObjId × Address → Nat) : Nat → List (ObjId × Address) → List InsertOp
  | _, [] => []
  | k, p :: ps => InsertOp.insAddr p.1 k (fk p) :: addrLogFrom fk (k + 1) ps

/-- Post-flush transformation of a User instance: a pending user
receives its generated key; expire-on-commit marks every instance's
`addresses` attribute stale (06_1 lines 95-99). -/
def commitUserFn (s : Session) (o : ObjId) (v : User) : User :=
  match s.userKey o with
  | some k => { v with id := some k, addressesState := LoadState.staleAfterCommit }
  | none => { v with addressesState := LoadState.staleAfterCommit }

/-- Post-flush transformation of an Address instance: a pending address
receives its generated key and its resolved foreign-key value. -/
def commitAddrFn (s : Session) (o : ObjId) (v : Address) : Address :=
  match s.addrKey o, s.addrFk o with
  | some k, some fk => { v with id := some k, user_id := some fk }
  | _, _ => v

/-- Outcome of `Session.commit`: the result, the session state after
the call, and the INSERT statements emitted. -/
structure CommitOutcome where
  result : Except TransactionError Unit
  state : Session
  log : List InsertOp
deriving Repr

/-- Foreign-key resolver the flush uses for a pending address pair
(total on the success path, where every pending address resolves). -/
def Session.fkFun (s : Session) : ObjId × Address → Nat :=
  fun p => (s.addrFk p.1).getD 0

/-- The successful branch of a commit: users inserted first, then
addresses; keys generated post-insert and written back to the
instances; identity maps extended; attributes expired; working set
cleared. -/
def Session.commitOk (s : Session) : CommitOutcome :=
  { result := Except.ok (),
    state :=
      { graph :=
          { users := s.graph.users.map (fun p => (p.1, commitUserFn s p.1 p.2)),
            addrs := s.graph.addrs.map (fun p => (p.1, commitAddrFn s p.1 p.2)) },
        pending := [],
        dbUsers := s.dbUsers ++ userRowsFrom s.nextUserKey s.pendingUserPairs,
        dbAddrs := s.dbAddrs ++ addrRowsFrom s.fkFun s.nextAddrKey s.pendingAddrPairs,
        imUsers := s.imUsers ++ imFrom s.nextUserKey (s.pendingUserPairs.map (fun p => p.1)),
        imAddrs := s.imAddrs ++ imFrom s.nextAddrKey (s.pendingAddrPairs.map (fun p => p.1)),
        nextUserKey := s.nextUserKey + s.pendingUserPairs.length,
        nextAddrKey := s.nextAddrKey + s.pendingAddrPairs.length },
    log := userLogFrom s.nextUserKey s.pendingUserPairs
      ++ addrLogFrom s.fkFun s.nextAddrKey s.pendingAddrPairs }

/-- The failing branch of a commit: the storage layer rejected the
flush, nothing was inserted and the session is untouched. -/
def Session.commitFail (s : Session) : CommitOutcome :=
  { result := Except.error { msg := "NOT NULL constraint failed: address.user_id" },
    state := s,
    log := [] }

/-- Modelled from the spec: `commit()` flushes pending changes in
dependency order (referenced users before referencing addresses, spec
section 4.2 and 06_1 lines 88-90), generates keys post-insert, expires
in-memory attributes, and clears the working set; or it fails
atomically: when some pending address cannot resolve a non-null foreign
key (the NOT NULL constraint of 03_metadata line 54), the storage layer
rejects the flush, a `TransactionError` is signalled, the working set
is left unmodified and nothing is inserted. -/
def Session.commit (s : Session) : CommitOutcome :=
  if s.pendingAddrPairs.all (fun p => (s.addrFk p.1).isSome) then s.commitOk
  else s.commitFail

/-- Dependency ordering of a flush log with respect to a session's
working set: every pending parent's INSERT appears at a strictly
earlier position than the INSERT of any pending address owned by it. -/
def parentsFirst (s : Session) (log : List InsertOp) : Prop :=
  ∀ p c ao, (∃ uo, (p, uo) ∈ s.pendingUserPairs) → (c, ao) ∈ s.pendingAddrPairs →
    ao.user = some p →
    ∃ i j : Nat, i < j ∧ (∃ k, log[i]? = some (InsertOp.insUser p k))
      ∧ (∃ k fk, log[j]? = some (InsertOp.insAddr c k fk))

/-- The four loader strategies demonstrated in 06_1 sections 2.2-2.5:
lazy per-parent loading (the relationship default), selectinload,
joinedload, and contains_eager. -/
inductive LoadStrategy where
  | lazyload
  | selectinload
  | joinedload
  | contains_eager
deriving Repr, DecidableEq

/-- Rows returned by the deferred-per-parent fetch: the address rows of
one parent key. -/
def lazyChildRows (db : List AddrRow) (k : Nat) : List AddrRow :=
  db.filter (fun r => r.user_id == k)

/-- Rows the batched-deferred (selectin) follow-up fetch returns for
the whole parent set `ks`, restricted to parent `k` when the groups are
distributed. -/
def selectinChildRows (db : List AddrRow) (ks : List Nat) (k : Nat) : List AddrRow :=
  (db.filter (fun r => decide (r.user_id ∈ ks))).filter (fun r => r.user_id == k)

/-- The joined rows of `user_account` with `address` on
`address.user_id = user_account.id`: the join the eager-join strategy
folds into the parent query, and equally the join the script writes
explicitly with Select.join for contains_eager. -/
def joinRows : List UserRow → List AddrRow → List (UserRow × AddrRow)
  | [], _ => []
  | u :: us, db =>
    (db.filter (fun r => r.user_id == u.id)).map (fun r => (u, r)) ++ joinRows us db

/-- The child rows parent `k` receives from the joined result set. -/
def joinedChildRows (us : List UserRow) (db : List AddrRow) (k : Nat) : List AddrRow :=
  ((joinRows us db).filter (fun p => p.1.id == k)).map (fun p => p.2)

/-- Modelled from the spec (section 4.3): the child rows each strategy
delivers for parent key `k`.  contains_eager populates the relationship
from the explicitly written join, which is the same inner join the
eager-join strategy would emit. -/
def Session.loadRows (s : Session) (strat : LoadStrategy) (k : Nat) : List AddrRow :=
  match strat with
  | LoadStrategy.lazyload => lazyChildRows s.dbAddrs k
  | LoadStrategy.selectinload =>
      selectinChildRows s.dbAddrs (s.dbUsers.map (fun r => r.id)) k
  | LoadStrategy.joinedload => joinedChildRows s.dbUsers s.dbAddrs k
  | LoadStrategy.contains_eager => joinedChildRows s.dbUsers s.dbAddrs k

/-- Modelled from the spec / the source's documented behaviour (06_1
lines 107-111): fetched rows are resolved through the session's
identity map, so a re-fetched child is the already-known in-memory
instance for its primary key. -/
def Session.reloadChildren (s : Session) (strat : LoadStrategy) (k : Nat) : List ObjId :=
  (s.loadRows strat k).filterMap (fun r => lookupA s.imAddrs r.id)

/-- One step of the relationship-attribute state machine triggered by
an attribute access: entering the fetch. -/
def beginAccess : LoadState → LoadState
  | LoadState.loaded => LoadState.loaded
  | _ => LoadState.loading

/-- One step of the relationship-attribute state machine: completing a
pending fetch.  The Bool records whether a fetch was performed. -/
def finishFetch : LoadState → LoadState × Bool
  | LoadState.loading => (LoadState.loaded, true)
  | st => (st, false)

/-- A full attribute access: a fetch is performed unless the attribute
is already loaded. -/
def accessStep (st : LoadState) : LoadState × Bool :=
  finishFetch (beginAccess st)

/-- Modelled from the spec: accessing `u.addresses` on an instance
whose attribute is not loaded performs a fetch (06_1 lines 100-105) and
leaves the attribute loaded; accessing a loaded attribute emits no SQL.
The refreshed collection is resolved through the identity map. -/
def Session.accessAddresses (s : Session) (u : ObjId) : Session × Bool :=
  match s.graph.user? u with
  | none => (s, false)
  | some uo =>
    if uo.addressesState == LoadState.loaded then (s, false)
    else
      let newList :=
        match uo.id with
        | some k => s.reloadChildren LoadStrategy.lazyload k
        | none => uo.addresses
      let g2 := s.graph.updateUser u
        (fun v => { v with addresses := newList, addressesState := LoadState.loaded })
      ({ s with graph := g2 }, true)

/-- A round trip to the storage backend issued while loading a set of
parents and their collections. -/
inductive Fetch where
  | principal (joined : Bool)
  | perParent (k : Nat)
  | batched (ks : List Nat)
deriving Repr, DecidableEq

/-- A follow-up fetch is any round trip beyond the principal SELECT. -/
def Fetch.isFollowUp : Fetch → Bool
  | Fetch.principal _ => false
  | _ => true

/-- Modelled from the spec (sections 4.3 and 8): the round trips each
strategy issues when a set of parents is loaded in one query and every
parent's collection is then read.  Lazy loading fetches once per
parent; selectinload issues a single follow-up keyed by the parent
identifiers; the join strategies fold child loading into the principal
SELECT. -/
def Session.runParentsQuery (s : Session) (strat : LoadStrategy) : List Fetch :=
  let ks := s.dbUsers.map (fun r => r.id)
  match strat with
  | LoadStrategy.lazyload => Fetch.principal false :: ks.map Fetch.perParent
  | LoadStrategy.selectinload => [Fetch.principal false, Fetch.batched ks]
  | LoadStrategy.joinedload => [Fetch.principal true]
  | LoadStrategy.contains_eager => [Fetch.principal true]

/-- Number of follow-up fetches in a round-trip trace. -/
def followUps (l : List Fetch) : Nat :=
  (l.filter Fetch.isFollowUp).length

/-- The relationship edges of the mapping (User.addresses and
Address.user). -/
inductive Edge where
  | userAddresses
  | addressUser
deriving Repr, DecidableEq

inductive JoinKind where
  | innerJoin
  | leftOuterJoin
deriving Repr, DecidableEq

/-- The join- and loader-relevant shape of a SELECT statement under
construction (06_1 sections 2.1, 2.4, 2.5): the joins written
explicitly with Select.join, the joins added by the joinedload option,
the edges contains_eager populates from the existing join, and any
warnings the library attached to the statement. -/
structure SelectStmt where
  explicitJoins : List Edge
  loaderJoins : List (Edge × JoinKind)
  eagerFromJoin : List Edge
  warnings : List String
deriving Repr, DecidableEq

/-- `select(Address)` before any option is applied (the WHERE and ORDER
BY clauses of the script do not affect join composition and are not
modelled). -/
def selectAddress : SelectStmt :=
  { explicitJoins := [], loaderJoins := [], eagerFromJoin := [], warnings := [] }

/-- `Select.join(Address.user)`: records an explicit join for the
edge. -/
def SelectStmt.join (st : SelectStmt) (e : Edge) : SelectStmt :=
  { st with explicitJoins := st.explicitJoins ++ [e] }

/-- Modelled from the source's documented output (06_1 line 203):
joinedload always adds its own join for the edge, a LEFT OUTER JOIN by
default or an inner join with innerjoin=True; it performs no check
against joins already present in the statement and records no
warning. -/
def SelectStmt.joinedload (st : SelectStmt) (e : Edge) (innerjoin : Bool) : SelectStmt :=
  { st with loaderJoins :=
      st.loaderJoins ++ [(e, if innerjoin then JoinKind.innerJoin else JoinKind.leftOuterJoin)] }

/-- `contains_eager(Address.user)`: the relationship is populated from
the already-written explicit join; no join is added (06_1 lines
179-191). -/
def SelectStmt.containsEager (st : SelectStmt) (e : Edge) : SelectStmt :=
  { st with eagerFromJoin := st.eagerFromJoin ++ [e] }

/-- How many joins for edge `e` the rendered SQL contains. -/
def SelectStmt.renderedJoinCount (st : SelectStmt) (e : Edge) : Nat :=
  (st.explicitJoins.filter (fun x => x == e)).length
    + (st.loaderJoins.filter (fun p => p.1 == e)).length

/-- The section 2.5 statement: explicit join plus contains_eager (06_1
lines 183-189). -/
def stmtContainsEager : SelectStmt :=
  (selectAddress.join Edge.addressUser).containsEager Edge.addressUser

/-- The statement of 06_1 lines 196-202: explicit join combined with
joinedload on the same edge. -/
def stmtRedundant : SelectStmt :=
  (selectAddress.join Edge.addressUser).joinedload Edge.addressUser false

/-- Every member of `uo.addresses` is an Address instance whose
back-reference is `u` and which is attached to the session. -/
def childrenAttachedOk (s : Session) (u : ObjId) (uo : User) : Bool :=
  uo.addresses.all (fun a =>
    match s.graph.addr? a with
    | some ao => (ao.user == some u) && decide (a ∈ s.pending)
    | none => false)

/-- No attached Address instance outside `uo.addresses` back-references
`u`. -/
def noStrayChildren (s : Session) (u : ObjId) (uo : User) : Bool :=
  s.pending.all (fun a =>
    match s.graph.addr? a with
    | some ao => (ao.user != some u) || decide (a ∈ uo.addresses)
    | none => true)

/-- Every user instance of the graph is still transient (no key
assigned yet): the situation before the first commit (06_1 lines
83-86). -/
def freshGraph (s : Session) : Bool :=
  s.graph.users.all (fun p => p.2.id == none)

/-- The script's objects before any linking: u1 (ObjId 0), a1 (ObjId
1), a2 (ObjId 2), as constructed at 06_1 lines 43-62. -/
def demoGraph0 : Graph :=
  { users := [(0, { id := none, name := "pkrabs", fullname := some ("Pearl Krabs"),
                    addresses := [], addressesState := LoadState.unloaded })],
    addrs := [(1, { id := none, email_address := "pearl.krabs@gmail.com",
                    user_id := none, user := none }),
              (2, { id := none, email_address := "pearl@aol.com",
                    user_id := none, user := none })] }

/-- The value u1 holds at construction, before any linking. -/
def demoU0 : User :=
  { id := none, name := "pkrabs", fullname := some ("Pearl Krabs"),
    addresses := [], addressesState := LoadState.unloaded }

/-- The value a1 holds at construction, before any linking. -/
def demoA0 : Address :=
  { id := none, email_address := "pearl.krabs@gmail.com", user_id := none, user := none }

/-- After `u1.addresses.append(a1)` and `a2.user = u1`. -/
def demoGraph : Graph := (demoGraph0.appendAddress 0 1).setAddressUser 2 0

/-- The value u1 holds after both links. -/
def demoU : User :=
  { id := none, name := "pkrabs", fullname := some ("Pearl Krabs"),
    addresses := [1, 2], addressesState := LoadState.unloaded }

/-- The value a1 holds after `u1.addresses.append(a1)`. -/
def demoA1 : Address :=
  { id := none, email_address := "pearl.krabs@gmail.com", user_id := none, user := some 0 }

/-- A fresh session over the demo graph (sqlite starts generated keys
at 1). -/
def demoSession : Session :=
  { graph := demoGraph, pending := [], dbUsers := [], dbAddrs := [],
    imUsers := [], imAddrs := [], nextUserKey := 1, nextAddrKey := 1 }

/-- `session.add(u1)` (06_1 line 78). -/
def demoAdded : Session := demoSession.add 0

/-- `session.commit()` (06_1 line 90). -/
def demoCommitted : CommitOutcome := demoAdded.commit

/-- The session state after the successful demo commit. -/
def demoS1 : Session := demoCommitted.state

/-- The value u1 holds after the demo commit: key assigned, attribute
expired. -/
def demoU1 : User :=
  { id := some 1, name := "pkrabs", fullname := some ("Pearl Krabs"),
    addresses := [1, 2], addressesState := LoadState.staleAfterCommit }

/-- A session holding one attached Address with no owner: its flush
violates the NOT NULL foreign-key constraint of 03_metadata line 54. -/
def demoBad : Session :=
  { graph := { users := [],
               addrs := [(5, { id := none, email_address := "orphan@nowhere.invalid",
                               user_id := none, user := none })] },
    pending := [5], dbUsers := [], dbAddrs := [],
    imUsers := [], imAddrs := [], nextUserKey := 1, nextAddrKey := 1 }

/-- A committed state with three parents of two children each, the
fetch-count scenario of spec section 8. -/
def demo3 : Session :=
  { graph := { users := [], addrs := [] }, pending := [],
    dbUsers := [{ id := 1, name := "spongebob", fullname := none },
                { id := 2, name := "patrick", fullname := none },
                { id := 3, name := "sandy", fullname := none }],
    dbAddrs := [{ id := 1, email_address := "s1@sqlalchemy.org", user_id := 1 },
                { id := 2, email_address := "s2@sqlalchemy.org", user_id := 1 },
                { id := 3, email_address := "p1@sqlalchemy.org", user_id := 2 },
                { id := 4, email_address := "p2@sqlalchemy.org", user_id := 2 },
                { id := 5, email_address := "y1@sqlalchemy.org", user_id := 3 },
                { id := 6, email_address := "y2@sqlalchemy.org", user_id := 3 }],
    imUsers := [], imAddrs := [], nextUserKey := 4, nextAddrKey := 7 }

theorem find?_map_keyed {β : Type} (l : List (ObjId × β)) (f : ObjId → β → β) (o : ObjId) :
    (l.map (fun p => (p.1, f p.1 p.2))).find? (fun p => p.1 == o)
      = (l.find? (fun p => p.1 == o)).map (fun p => (p.1, f p.1 p.2)) := by
  induction l with
  | nil => rfl
  | cons h t ih =>
    by_cases hh : h.1 = o
    · simp [List.find?, hh]
    · have : (h.1 == o) = false := by simpa using hh
      simp [List.find?, this, ih]

theorem lookupA_map_keyed {β : Type} (l : List (ObjId × β)) (f : ObjId → β → β) (o : ObjId) :
    lookupA (l.map (fun p => (p.1, f p.1 p.2))) o = (lookupA l o).map (f o) := by
  unfold lookupA
  rw [find?_map_keyed]
  cases hf : l.find? (fun p => p.1 == o) with
  | none => rfl
  | some q =>
    have hq := List.find?_some hf
    have : q.1 = o := by simpa using hq
    simp [this]

theorem Graph.user?_linkOwner (g : Graph) (a u o : ObjId) :
    (g.linkOwner a u).user? o = (g.user? o).map (linkUserFn a u o) := by
  unfold Graph.linkOwner Graph.user?
  exact lookupA_map_keyed g.users (linkUserFn a u) o

theorem Graph.addr?_linkOwner (g : Graph) (a u o : ObjId) :
    (g.linkOwner a u).addr? o = (g.addr? o).map (linkAddrFn a u o) := by
  unfold Graph.linkOwner Graph.addr?
  exact lookupA_map_keyed g.addrs (linkAddrFn a u) o

/-- Core fact behind claim C6: after linking, the address's
back-reference points at the owner and the address is a member of the
owner's collection. -/
theorem linkOwner_reciprocal (g : Graph) (u a : ObjId) (uo : User) (ao : Address)
    (hu : g.user? u = some uo) (ha : g.addr? a = some ao) :
    (∃ ao', (g.linkOwner a u).addr? a = some ao' ∧ ao'.user = some u)
      ∧ (∃ uo', (g.linkOwner a u).user? u = some uo' ∧ a ∈ uo'.addresses) := by
  constructor
  · refine ⟨linkAddrFn a u a ao, ?_, ?_⟩
    · rw [Graph.addr?_linkOwner, ha]; rfl
    · simp [linkAddrFn]
  · refine ⟨linkUserFn a u u uo, ?_, ?_⟩
    · rw [Graph.user?_linkOwner, hu]; rfl
    · simp [linkUserFn]

theorem mem_pendingUserPairs_iff (s : Session) (o : ObjId) (uo : User) :
    (o, uo) ∈ s.pendingUserPairs ↔ o ∈ s.pending ∧ s.graph.user? o = some uo := by
  unfold Session.pendingUserPairs
  rw [List.mem_filterMap]
  constructor
  · rintro ⟨a, ha, hmap⟩
    cases hv : s.graph.user? a with
    | none => rw [hv] at hmap; simp at hmap
    | some v =>
      rw [hv] at hmap
      simp at hmap
      obtain ⟨h1, h2⟩ := hmap
      subst h1; subst h2
      exact ⟨List.mem_dedup.mp ha, hv⟩
  · rintro ⟨ho, hu⟩
    exact ⟨o, List.mem_dedup.mpr ho, by rw [hu]; rfl⟩

theorem mem_pendingAddrPairs_iff (s : Session) (o : ObjId) (ao : Address) :
    (o, ao) ∈ s.pendingAddrPairs ↔ o ∈ s.pending ∧ s.graph.addr? o = some ao := by
  unfold Session.pendingAddrPairs
  rw [List.mem_filterMap]
  constructor
  · rintro ⟨a, ha, hmap⟩
    cases hv : s.graph.addr? a with
    | none => rw [hv] at hmap; simp at hmap
    | some v =>
      rw [hv] at hmap
      simp at hmap
      obtain ⟨h1, h2⟩ := hmap
      subst h1; subst h2
      exact ⟨List.mem_dedup.mp ha, hv⟩
  · rintro ⟨ho, hu⟩
    exact ⟨o, List.mem_dedup.mpr ho, by rw [hu]; rfl⟩

theorem commit_eq_ok (s : Session) (h : s.commit.result = Except.ok ()) :
    s.commit = s.commitOk
      ∧ s.pendingAddrPairs.all (fun p => (s.addrFk p.1).isSome) = true := by
  unfold Session.commit at h ⊢
  by_cases hc : s.pendingAddrPairs.all (fun p => (s.addrFk p.1).isSome) = true
  · rw [if_pos hc]; exact ⟨rfl, hc⟩
  · rw [if_neg hc] at h
    exact absurd h (by simp [Session.commitFail])

/-- C6: an Address added to a User's collection by append, or linked by
assigning the user (equivalently constructing with user=), is
reciprocally linked at once: the address's `user` attribute refers to
that User and the address is a member of that User's `addresses`
collection, without application code performing the second update. -/
theorem backref_reciprocal (g : Graph) (u a : ObjId) (uo : User) (ao : Address)
    (hu : g.user? u = some uo) (ha : g.addr? a = some ao) :
    ((∃ ao', (g.appendAddress u a).addr? a = some ao' ∧ ao'.user = some u)
       ∧ (∃ uo', (g.appendAddress u a).user? u = some uo' ∧ a ∈ uo'.addresses))
      ∧ ((∃ ao', (g.setAddressUser a u).addr? a = some ao' ∧ ao'.user = some u)
       ∧ (∃ uo', (g.setAddressUser a u).user? u = some uo' ∧ a ∈ uo'.addresses)) :=
  ⟨linkOwner_reciprocal g u a uo ao hu ha, linkOwner_reciprocal g u a uo ao hu ha⟩

theorem backref_reciprocal_witness :
    demoGraph0.user? 0 = some demoU0 ∧ demoGraph0.addr? 1 = some demoA0
      ∧ (((∃ ao', (demoGraph0.appendAddress 0 1).addr? 1 = some ao' ∧ ao'.user = some 0)
            ∧ (∃ uo', (demoGraph0.appendAddress 0 1).user? 0 = some uo' ∧ 1 ∈ uo'.addresses))
         ∧ ((∃ ao', (demoGraph0.setAddressUser 1 0).addr? 1 = some ao' ∧ ao'.user = some 0)
            ∧ (∃ uo', (demoGraph0.setAddressUser 1 0).user? 0 = some uo' ∧ 1 ∈ uo'.addresses))) :=
  ⟨by rfl, by rfl, backref_reciprocal demoGraph0 0 1 demoU0 demoA0 (by rfl) (by rfl)⟩

/-- C4: attaching a root User pulls every Address of its collection
into the unit-of-work scope: after the single add, the membership test
passes for the root and for all owned children. -/
theorem add_cascades_ownership (s : Session) (u : ObjId) (uo : User)
    (h : s.graph.user? u = some uo) :
    (s.add u).memScope u = true ∧ ∀ a ∈ uo.addresses, (s.add u).memScope a = true := by
  constructor
  · simp [Session.add, Session.memScope, h, List.mem_dedup]
  · intro a ha
    simp [Session.add, Session.memScope, h, List.mem_dedup]
    exact Or.inr (Or.inr ha)

theorem add_cascades_ownership_witness :
    demoSession.graph.user? 0 = some demoU
      ∧ ((demoSession.add 0).memScope 0 = true
         ∧ ∀ a ∈ demoU.addresses, (demoSession.add 0).memScope a = true) :=
  ⟨by rfl, add_cascades_ownership demoSession 0 demoU (by rfl)⟩

/-- C2: loading a set of parents under the batched-deferred strategy
issues exactly one follow-up fetch, keyed by the parent identifiers,
regardless of the number of parents, whereas the deferred-per-parent
strategy issues one fetch per parent; in particular for three parents
with two children each. -/
theorem selectin_single_followup (s : Session) :
    followUps (s.runParentsQuery LoadStrategy.selectinload) = 1
      ∧ Fetch.batched (s.dbUsers.map (fun r => r.id))
          ∈ s.runParentsQuery LoadStrategy.selectinload
      ∧ followUps (s.runParentsQuery LoadStrategy.lazyload) = s.dbUsers.length
      ∧ followUps (demo3.runParentsQuery LoadStrategy.selectinload) = 1
      ∧ followUps (demo3.runParentsQuery LoadStrategy.lazyload) = 3 := by
  refine ⟨by rfl, by simp [Session.runParentsQuery], ?_, by rfl, by rfl⟩
  simp [followUps, Session.runParentsQuery, List.filter_map, Function.comp,
    Fetch.isFollowUp]

/-- C3 counterexample: the statement of 06_1 lines 196-202 (explicit
join on Address.user combined with joinedload on the same edge) renders
two joins for the edge and carries no warning: the program emits the
redundant join silently instead of detecting or flagging it. -/
theorem joinedload_with_explicit_join_is_silent :
    stmtRedundant.renderedJoinCount Edge.addressUser = 2
      ∧ stmtRedundant.warnings = [] := by
  constructor <;> rfl

/-- C3 amended: when an explicit join for an edge is already present,
adding the eager-join option for the same edge silently adds a second
join for that edge (no warning is recorded and nothing prevents the
duplicate); the explicit-join-reuse option (contains_eager) is the
provided way to populate the relationship without adding a join. -/
theorem joinedload_with_explicit_join_amended (st : SelectStmt) (e : Edge) (b : Bool)
    (h : e ∈ st.explicitJoins) :
    (st.joinedload e b).warnings = st.warnings
      ∧ 2 ≤ (st.joinedload e b).renderedJoinCount e
      ∧ (st.containsEager e).renderedJoinCount e = st.renderedJoinCount e := by
  refine ⟨rfl, ?_, rfl⟩
  unfold SelectStmt.joinedload SelectStmt.renderedJoinCount
  simp [List.filter_append]
  have h1 : 0 < (st.explicitJoins.filter (fun x => x == e)).length := by
    apply List.length_pos.mpr
    intro hnil
    have : e ∈ st.explicitJoins.filter (fun x => x == e) :=
      List.mem_filter.mpr ⟨h, by simp⟩
    rw [hnil] at this
    exact absurd this (List.not_mem_nil e)
  omega

theorem joinedload_with_explicit_join_amended_witness :
    Edge.addressUser ∈ (selectAddress.join Edge.addressUser).explicitJoins
      ∧ (((selectAddress.join Edge.addressUser).joinedload Edge.addressUser false).warnings
            = (selectAddress.join Edge.addressUser).warnings
         ∧ 2 ≤ ((selectAddress.join Edge.addressUser).joinedload
              Edge.addressUser false).renderedJoinCount Edge.addressUser
         ∧ ((selectAddress.join Edge.addressUser).containsEager
              Edge.addressUser).renderedJoinCount Edge.addressUser
            = (selectAddress.join Edge.addressUser).renderedJoinCount Edge.addressUser) :=
  ⟨by decide,
    joinedload_with_explicit_join_amended (selectAddress.join Edge.addressUser)
      Edge.addressUser false (by decide)⟩

theorem commitUserFn_state (s : Session) (o : ObjId) (v : User) :
    (commitUserFn s o v).addressesState = LoadState.staleAfterCommit := by
  unfold commitUserFn
  cases s.userKey o <;> rfl

theorem user?_commitOk (s : Session) (o : ObjId) :
    s.commitOk.state.graph.user? o = (s.graph.user? o).map (commitUserFn s o) := by
  unfold Session.commitOk Graph.user?
  exact lookupA_map_keyed s.graph.users (commitUserFn s) o

theorem addr?_commitOk (s : Session) (o : ObjId) :
    s.commitOk.state.graph.addr? o = (s.graph.addr? o).map (commitAddrFn s o) := by
  unfold Session.commitOk Graph.addr?
  exact lookupA_map_keyed s.graph.addrs (commitAddrFn s) o

theorem idxOfP_isSome_of_mem {α : Type} (p : α → Bool) (l : List α) (x : α)
    (hx : x ∈ l) (hp : p x = true) : (idxOfP p l).isSome := by
  induction l with
  | nil => cases hx
  | cons y ys ih =>
    unfold idxOfP
    by_cases hy : p y = true
    · simp [hy]
    · simp [hy, Option.isSome_map]
      rcases List.mem_cons.mp hx with h | h
      · subst h; exact absurd hp hy
      · have := ih h
        simpa [Option.isSome_map] using this

theorem idxOfP_get {α : Type} (p : α → Bool) :
    ∀ (l : List α) (i : Nat), idxOfP p l = some i →
      ∃ h : i < l.length, p (l.get ⟨i, h⟩) = true := by
  intro l
  induction l with
  | nil => intro i h; simp [idxOfP] at h
  | cons y ys ih =>
    intro i h
    unfold idxOfP at h
    by_cases hy : p y = true
    · rw [if_pos hy] at h
      have : i = 0 := by injection h with h2; omega
      subst this
      exact ⟨by simp, hy⟩
    · rw [if_neg hy] at h
      cases hz : idxOfP p ys with
      | none => rw [hz] at h; simp at h
      | some j =>
        rw [hz] at h
        simp at h
        obtain ⟨hj, hpj⟩ := ih j hz
        subst h
        exact ⟨by simpa using Nat.succ_lt_succ hj, by simpa using hpj⟩

theorem userKey_isSome (s : Session) (o : ObjId) (uo : User)
    (ho : o ∈ s.pending) (hu : s.graph.user? o = some uo) :
    ∃ k, s.userKey o = some k := by
  have hmem : (o, uo) ∈ s.pendingUserPairs :=
    (mem_pendingUserPairs_iff s o uo).mpr ⟨ho, hu⟩
  have hs := idxOfP_isSome_of_mem (fun p => p.1 == o) s.pendingUserPairs (o, uo) hmem (by simp)
  unfold Session.userKey
  cases hz : idxOfP (fun p => p.1 == o) s.pendingUserPairs with
  | none => rw [hz] at hs; simp at hs
  | some i => exact ⟨s.nextUserKey + i, by rfl⟩

theorem addrKey_isSome (s : Session) (o : ObjId) (ao : Address)
    (ho : o ∈ s.pending) (ha : s.graph.addr? o = some ao) :
    ∃ k, s.addrKey o = some k := by
  have hmem : (o, ao) ∈ s.pendingAddrPairs :=
    (mem_pendingAddrPairs_iff s o ao).mpr ⟨ho, ha⟩
  have hs := idxOfP_isSome_of_mem (fun p => p.1 == o) s.pendingAddrPairs (o, ao) hmem (by simp)
  unfold Session.addrKey
  cases hz : idxOfP (fun p => p.1 == o) s.pendingAddrPairs with
  | none => rw [hz] at hs; simp at hs
  | some i => exact ⟨s.nextAddrKey + i, by rfl⟩

theorem userKey_mem_inv (s : Session) (o : ObjId) (k : Nat)
    (h : s.userKey o = some k) : ∃ v, s.graph.user? o = some v := by
  unfold Session.userKey at h
  cases hz : idxOfP (fun p => p.1 == o) s.pendingUserPairs with
  | none => rw [hz] at h; simp at h
  | some i =>
    obtain ⟨hi, hp⟩ := idxOfP_get _ _ _ hz
    have hqm : s.pendingUserPairs.get ⟨i, hi⟩ ∈ s.pendingUserPairs := List.get_mem _ i hi
    have hqo : (s.pendingUserPairs.get ⟨i, hi⟩).1 = o := by simpa using hp
    rw [← hqo]
    exact ⟨(s.pendingUserPairs.get ⟨i, hi⟩).2,
      ((mem_pendingUserPairs_iff s _ _).mp hqm).2⟩

theorem userKey_inj (s : Session) (w u : ObjId) (k : Nat)
    (hw : s.userKey w = some k) (hu : s.userKey u = some k) : w = u := by
  unfold Session.userKey at hw hu
  cases hzw : idxOfP (fun p => p.1 == w) s.pendingUserPairs with
  | none => rw [hzw] at hw; simp at hw
  | some iw =>
    cases hzu : idxOfP (fun p => p.1 == u) s.pendingUserPairs with
    | none => rw [hzu] at hu; simp at hu
    | some iu =>
      rw [hzw] at hw
      rw [hzu] at hu
      simp at hw hu
      have hieq : iw = iu := by omega
      subst hieq
      obtain ⟨hiw, hpw⟩ := idxOfP_get _ _ _ hzw
      obtain ⟨hiu, hpu⟩ := idxOfP_get _ _ _ hzu
      have h1 : (s.pendingUserPairs.get ⟨iw, hiw⟩).1 = w := by simpa using hpw
      have h2 : (s.pendingUserPairs.get ⟨iw, hiu⟩).1 = u := by simpa using hpu
      rw [← h1, ← h2]

/-- C7: the relationship attribute follows the state machine: every
successful commit of the owning scope moves it to stale-after-commit;
the first subsequent access passes through loading, performs a fetch
and leaves it loaded; while loaded, further accesses perform no
fetch. -/
theorem relationship_state_machine (s : Session) (h : s.commit.result = Except.ok ()) :
    (∀ p ∈ s.commit.state.graph.users, p.2.addressesState = LoadState.staleAfterCommit)
      ∧ beginAccess LoadState.staleAfterCommit = LoadState.loading
      ∧ accessStep LoadState.staleAfterCommit = (LoadState.loaded, true)
      ∧ accessStep LoadState.loaded = (LoadState.loaded, false)
      ∧ (∀ u uo, s.commit.state.graph.user? u = some uo →
           (s.commit.state.accessAddresses u).2 = true)
      ∧ (∀ (s2 : Session) (u : ObjId) (uo : User), s2.graph.user? u = some uo →
           uo.addressesState = LoadState.loaded → s2.accessAddresses u = (s2, false)) := by
  obtain ⟨hco, _⟩ := commit_eq_ok s h
  rw [hco]
  refine ⟨?_, rfl, rfl, rfl, ?_, ?_⟩
  · intro p hp
    have hp' : p ∈ s.graph.users.map (fun q => (q.1, commitUserFn s q.1 q.2)) := hp
    obtain ⟨q, _, hpq⟩ := List.mem_map.mp hp'
    rw [← hpq]
    exact commitUserFn_state s q.1 q.2
  · intro u uo huo
    have h2 := user?_commitOk s u
    rw [huo] at h2
    cases hv : s.graph.user? u with
    | none => rw [hv] at h2; simp at h2
    | some v =>
      rw [hv] at h2
      simp at h2
      have hst : uo.addressesState = LoadState.staleAfterCommit := by
        rw [h2]; exact commitUserFn_state s u v
      unfold Session.accessAddresses
      rw [huo]
      simp [hst]
  · intro s2 u uo h1 h2
    unfold Session.accessAddresses
    rw [h1]
    simp [h2]

theorem relationship_state_machine_witness :
    demoAdded.commit.result = Except.ok ()
      ∧ accessStep LoadState.staleAfterCommit = (LoadState.loaded, true)
      ∧ accessStep LoadState.loaded = (LoadState.loaded, false)
      ∧ (demoAdded.commit.state.accessAddresses 0).2 = true :=
  ⟨by rfl, (relationship_state_machine demoAdded (by rfl)).2.2.1,
    (relationship_state_machine demoAdded (by rfl)).2.2.2.1,
    (relationship_state_machine demoAdded (by rfl)).2.2.2.2.1 0 demoU1 (by rfl)⟩

/-- C1: after a successful commit, every attached entity carries a
non-null identifier, and every attached Address carries a non-null
foreign key equal to its owning User's identifier. -/
theorem commit_assigns_ids_and_fks (s : Session) (h : s.commit.result = Except.ok ()) :
    (∀ o uo, o ∈ s.pending → s.graph.user? o = some uo →
       ∃ uo', s.commit.state.graph.user? o = some uo' ∧ uo'.id.isSome)
      ∧ (∀ o ao, o ∈ s.pending → s.graph.addr? o = some ao →
       ∃ ao' p uo', s.commit.state.graph.addr? o = some ao'
         ∧ ao'.id.isSome ∧ ao'.user = some p
         ∧ s.commit.state.graph.user? p = some uo'
         ∧ uo'.id.isSome ∧ ao'.user_id = uo'.id) := by
  obtain ⟨hco, hcond⟩ := commit_eq_ok s h
  rw [hco]
  constructor
  · intro o uo ho hu
    obtain ⟨k, hk⟩ := userKey_isSome s o uo ho hu
    refine ⟨commitUserFn s o uo, ?_, ?_⟩
    · rw [user?_commitOk, hu]; rfl
    · unfold commitUserFn; rw [hk]; rfl
  · intro o ao ho ha
    obtain ⟨kA, hkA⟩ := addrKey_isSome s o ao ho ha
    have hmem : (o, ao) ∈ s.pendingAddrPairs :=
      (mem_pendingAddrPairs_iff s o ao).mpr ⟨ho, ha⟩
    have hfk0 : (s.addrFk o).isSome := by
      simpa using List.all_eq_true.mp hcond (o, ao) hmem
    obtain ⟨fk, hfk⟩ := Option.isSome_iff_exists.mp hfk0
    have hfk' := hfk
    unfold Session.addrFk at hfk'
    rw [ha] at hfk'
    simp at hfk'
    obtain ⟨p, hp, hrk⟩ := Option.bind_eq_some.mp hfk'
    have haC : s.commitOk.state.graph.addr? o
        = some { ao with id := some kA, user_id := some fk } := by
      rw [addr?_commitOk, ha]
      simp [commitAddrFn, hkA, hfk]
    cases hk : s.userKey p with
    | some kp =>
      have hkp : fk = kp := by
        unfold Session.refKey at hrk
        rw [hk] at hrk
        exact (Option.some_inj.mp hrk).symm
      obtain ⟨v, hv⟩ := userKey_mem_inv s p kp hk
      refine ⟨_, p, commitUserFn s p v, haC, by simp, hp, ?_, ?_, ?_⟩
      · rw [user?_commitOk, hv]; rfl
      · unfold commitUserFn; rw [hk]; rfl
      · show some fk = (commitUserFn s p v).id
        unfold commitUserFn
        rw [hk, hkp]
    | none =>
      unfold Session.refKey at hrk
      rw [hk] at hrk
      obtain ⟨v, hv, hvid⟩ := Option.bind_eq_some.mp hrk
      refine ⟨_, p, commitUserFn s p v, haC, by simp, hp, ?_, ?_, ?_⟩
      · rw [user?_commitOk, hv]; rfl
      · show ((commitUserFn s p v).id).isSome
        unfold commitUserFn
        rw [hk]
        simpa using congrArg Option.isSome hvid
      · show some fk = (commitUserFn s p v).id
        unfold commitUserFn
        rw [hk]
        exact hvid.symm

theorem commit_assigns_ids_and_fks_witness :
    demoAdded.commit.result = Except.ok ()
      ∧ 1 ∈ demoAdded.pending
      ∧ demoAdded.graph.addr? 1 = some demoA1
      ∧ (∃ ao' p uo', demoAdded.commit.state.graph.addr? 1 = some ao'
           ∧ ao'.id.isSome ∧ ao'.user = some p
           ∧ demoAdded.commit.state.graph.user? p = some uo'
           ∧ uo'.id.isSome ∧ ao'.user_id = uo'.id) :=
  ⟨by rfl, by decide, by rfl,
    (commit_assigns_ids_and_fks demoAdded (by rfl)).2 1 demoA1 (by decide) (by rfl)⟩

theorem userLogFrom_length (l : List (ObjId × User)) :
    ∀ b, (userLogFrom b l).length = l.length := by
  induction l with
  | nil => intro b; rfl
  | cons p ps ih => intro b; simp [userLogFrom, ih (b + 1)]

theorem addrLogFrom_length (fk : ObjId × Address → Nat) (l : List (ObjId × Address)) :
    ∀ b, (addrLogFrom fk b l).length = l.length := by
  induction l with
  | nil => intro b; rfl
  | cons p ps ih => intro b; simp [addrLogFrom, ih (b + 1)]

theorem userLogFrom_getElem (l : List (ObjId × User)) :
    ∀ (b i : Nat) (h : i < l.length),
      (userLogFrom b l)[i]? = some (InsertOp.insUser (l.get ⟨i, h⟩).1 (b + i)) := by
  induction l with
  | nil => intro b i h; exact absurd h (by simp)
  | cons p ps ih =>
    intro b i h
    cases i with
    | zero => simp [userLogFrom]
    | succ n =>
      have hn : n < ps.length := by simpa using h
      have harith : b + 1 + n = b + (n + 1) := by omega
      show (InsertOp.insUser p.1 b :: userLogFrom (b + 1) ps)[n + 1]? = _
      rw [List.getElem?_cons_succ, ih (b + 1) n hn, harith]
      rfl

theorem addrLogFrom_getElem (fk : ObjId × Address → Nat) (l : List (ObjId × Address)) :
    ∀ (b i : Nat) (h : i < l.length),
      (addrLogFrom fk b l)[i]?
        = some (InsertOp.insAddr (l.get ⟨i, h⟩).1 (b + i) (fk (l.get ⟨i, h⟩))) := by
  induction l with
  | nil => intro b i h; exact absurd h (by simp)
  | cons p ps ih =>
    intro b i h
    cases i with
    | zero => simp [addrLogFrom]
    | succ n =>
      have hn : n < ps.length := by simpa using h
      have harith : b + 1 + n = b + (n + 1) := by omega
      show (InsertOp.insAddr p.1 b (fk p) :: addrLogFrom fk (b + 1) ps)[n + 1]? = _
      rw [List.getElem?_cons_succ, ih (b + 1) n hn, harith]
      rfl

theorem mem_userLogFrom (q : ObjId × User) :
    ∀ (l : List (ObjId × User)), q ∈ l →
      ∀ b, ∃ k, InsertOp.insUser q.1 k ∈ userLogFrom b l := by
  intro l
  induction l with
  | nil => intro hq; cases hq
  | cons p ps ih =>
    intro hq b
    rcases List.mem_cons.mp hq with h | h
    · subst h; exact ⟨b, by simp [userLogFrom]⟩
    · obtain ⟨k, hk⟩ := ih h (b + 1)
      exact ⟨k, by simp [userLogFrom, hk]⟩

theorem mem_addrLogFrom (fk : ObjId × Address → Nat) (q : ObjId × Address) :
    ∀ (l : List (ObjId × Address)), q ∈ l →
      ∀ b, ∃ k fkv, InsertOp.insAddr q.1 k fkv ∈ addrLogFrom fk b l := by
  intro l
  induction l with
  | nil => intro hq; cases hq
  | cons p ps ih =>
    intro hq b
    rcases List.mem_cons.mp hq with h | h
    · subst h; exact ⟨b, fk q, by simp [addrLogFrom]⟩
    · obtain ⟨k, fkv, hk⟩ := ih h (b + 1)
      exact ⟨k, fkv, by simp [addrLogFrom, hk]⟩

theorem commit_parentsFirst (s : Session) (h : s.commit.result = Except.ok ()) :
    parentsFirst s s.commit.log := by
  obtain ⟨hco, _⟩ := commit_eq_ok s h
  rw [hco]
  intro p c ao hpu hc _
  obtain ⟨uo, hp⟩ := hpu
  obtain ⟨⟨i, hi⟩, hgi⟩ := List.mem_iff_get.mp hp
  obtain ⟨⟨j, hj⟩, hgj⟩ := List.mem_iff_get.mp hc
  refine ⟨i, s.pendingUserPairs.length + j, by omega, ?_, ?_⟩
  · refine ⟨s.nextUserKey + i, ?_⟩
    have hlen : i < (userLogFrom s.nextUserKey s.pendingUserPairs).length := by
      rw [userLogFrom_length]; exact hi
    show (userLogFrom s.nextUserKey s.pendingUserPairs
        ++ addrLogFrom s.fkFun s.nextAddrKey s.pendingAddrPairs)[i]?
      = some (InsertOp.insUser p (s.nextUserKey + i))
    rw [List.getElem?_append, if_pos hlen, userLogFrom_getElem _ _ _ hi, hgi]
  · refine ⟨s.nextAddrKey + j, s.fkFun (s.pendingAddrPairs.get ⟨j, hj⟩), ?_⟩
    have hge : (userLogFrom s.nextUserKey s.pendingUserPairs).length
        ≤ s.pendingUserPairs.length + j := by
      rw [userLogFrom_length]; omega
    show (userLogFrom s.nextUserKey s.pendingUserPairs
        ++ addrLogFrom s.fkFun s.nextAddrKey s.pendingAddrPairs)[s.pendingUserPairs.length + j]?
      = some (InsertOp.insAddr c (s.nextAddrKey + j)
          (s.fkFun (s.pendingAddrPairs.get ⟨j, hj⟩)))
    rw [List.getElem?_append_right hge]
    have hidx : s.pendingUserPairs.length + j
        - (userLogFrom s.nextUserKey s.pendingUserPairs).length = j := by
      rw [userLogFrom_length]; omega
    rw [hidx, addrLogFrom_getElem _ _ _ _ hj]
    rw [show (s.pendingAddrPairs.get ⟨j, hj⟩).1 = c from by rw [hgj]]

/-- C5: within a single commit whose working set contains a parent User
and a dependent child Address (the child's back-reference names the
parent), the parent's INSERT is sequenced strictly before the child's
INSERT. -/
theorem parent_insert_precedes_child (s : Session) (h : s.commit.result = Except.ok ()) :
    parentsFirst s s.commit.log :=
  commit_parentsFirst s h

theorem parent_insert_precedes_child_witness :
    demoAdded.commit.result = Except.ok ()
      ∧ (∃ i j : Nat, i < j
          ∧ (∃ k, demoAdded.commit.log[i]? = some (InsertOp.insUser 0 k))
          ∧ (∃ k fk, demoAdded.commit.log[j]? = some (InsertOp.insAddr 1 k fk))) :=
  ⟨by rfl, parent_insert_precedes_child demoAdded (by rfl) 0 1 demoA1
      ⟨demoU, by decide⟩ (by decide) (by rfl)⟩

/-- C8: a commit either flushes every pending entity (users and
addresses all appear in the INSERT log, in dependency order, and the
working set is drained) or fails atomically: the session state is left
unmodified, nothing is inserted, and the failure is signalled as a
`TransactionError`. -/
theorem commit_atomic_or_flushes (s : Session) :
    (s.commit.result = Except.ok () →
       s.commit.state.pending = []
         ∧ (∀ o ∈ s.pending, ∀ uo, s.graph.user? o = some uo →
              ∃ k, InsertOp.insUser o k ∈ s.commit.log)
         ∧ (∀ o ∈ s.pending, ∀ ao, s.graph.addr? o = some ao →
              ∃ k fk, InsertOp.insAddr o k fk ∈ s.commit.log)
         ∧ parentsFirst s s.commit.log)
      ∧ (∀ e, s.commit.result = Except.error e →
           s.commit.state = s ∧ s.commit.log = []) := by
  constructor
  · intro h
    obtain ⟨hco, _⟩ := commit_eq_ok s h
    refine ⟨by rw [hco]; rfl, ?_, ?_, commit_parentsFirst s h⟩
    · intro o ho uo hu
      have hmem : (o, uo) ∈ s.pendingUserPairs :=
        (mem_pendingUserPairs_iff s o uo).mpr ⟨ho, hu⟩
      obtain ⟨k, hk⟩ := mem_userLogFrom (o, uo) s.pendingUserPairs hmem s.nextUserKey
      rw [hco]
      exact ⟨k, List.mem_append_left _ hk⟩
    · intro o ho ao ha
      have hmem : (o, ao) ∈ s.pendingAddrPairs :=
        (mem_pendingAddrPairs_iff s o ao).mpr ⟨ho, ha⟩
      obtain ⟨k, fkv, hk⟩ :=
        mem_addrLogFrom s.fkFun (o, ao) s.pendingAddrPairs hmem s.nextAddrKey
      rw [hco]
      exact ⟨k, fkv, List.mem_append_right _ hk⟩
  · intro e he
    unfold Session.commit at he ⊢
    by_cases hc : s.pendingAddrPairs.all (fun p => (s.addrFk p.1).isSome) = true
    · rw [if_pos hc] at he
      exact absurd he (by simp [Session.commitOk])
    · rw [if_neg hc]
      exact ⟨rfl, rfl⟩

theorem commit_atomic_or_flushes_witness :
    demoAdded.commit.result = Except.ok ()
      ∧ demoAdded.commit.state.pending = []
      ∧ demoBad.commit.result
          = Except.error { msg := "NOT NULL constraint failed: address.user_id" }
      ∧ demoBad.commit.state = demoBad ∧ demoBad.commit.log = [] :=
  ⟨by rfl, ((commit_atomic_or_flushes demoAdded).1 (by rfl)).1, by rfl,
    ((commit_atomic_or_flushes demoBad).2
        { msg := "NOT NULL constraint failed: address.user_id" } (by rfl)).1,
    ((commit_atomic_or_flushes demoBad).2
        { msg := "NOT NULL constraint failed: address.user_id" } (by rfl)).2⟩

/-- C10: a collection re-fetched after a commit within the same session
resolves every row through the session's identity map, hence yields
already-known in-memory instances; on the script's object graph,
re-reading u1's collection after the commit yields exactly the
previously attached instances a1 (ObjId 1) and a2 (ObjId 2). -/
theorem identity_map_reload :
    (∀ (s : Session) (strat : LoadStrategy) (k : Nat) (o : ObjId),
        o ∈ s.reloadChildren strat k → ∃ key, lookupA s.imAddrs key = some o)
      ∧ demoS1.reloadChildren LoadStrategy.lazyload 1 = [1, 2] := by
  constructor
  · intro s strat k o ho
    unfold Session.reloadChildren at ho
    obtain ⟨r, _, hlook⟩ := List.mem_filterMap.mp ho
    exact ⟨r.id, hlook⟩
  · rfl

theorem identity_map_reload_witness :
    1 ∈ demoS1.reloadChildren LoadStrategy.lazyload 1
      ∧ ∃ key, lookupA demoS1.imAddrs key = some 1 :=
  ⟨by decide, identity_map_reload.1 demoS1 LoadStrategy.lazyload 1 1 (by decide)⟩

theorem selectin_eq_lazy (db : List AddrRow) (ks : List Nat) (k : Nat) (hk : k ∈ ks) :
    selectinChildRows db ks k = lazyChildRows db k := by
  unfold selectinChildRows lazyChildRows
  rw [List.filter_filter]
  apply List.filter_congr
  intro r _
  by_cases h : r.user_id = k
  · simp [h, hk]
  · simp [h]

theorem headBlock_filter (db : List AddrRow) (u : UserRow) (k : Nat) :
    (((db.filter (fun r => r.user_id == u.id)).map (fun r => (u, r))).filter
        (fun p => p.1.id == k)).map (fun p => p.2)
      = if u.id = k then lazyChildRows db k else [] := by
  rw [List.filter_map]
  by_cases hu : u.id = k
  · rw [if_pos hu]
    have hcomp : ((fun p : UserRow × AddrRow => p.1.id == k) ∘ (fun r => (u, r)))
        = fun _ => true := by
      funext r; simp [Function.comp, hu]
    rw [hcomp, List.filter_true, List.map_map]
    have hsnd : ((fun p : UserRow × AddrRow => p.2) ∘ (fun r => (u, r)))
        = fun r => r := by
      funext r; rfl
    rw [hsnd, List.map_id']
    unfold lazyChildRows
    rw [hu]
  · rw [if_neg hu]
    have hcomp : ((fun p : UserRow × AddrRow => p.1.id == k) ∘ (fun r => (u, r)))
        = fun _ => false := by
      funext r; simp [Function.comp, hu]
    rw [hcomp]
    simp

theorem joinedChildRows_nil_of_not_mem (db : List AddrRow) (k : Nat) :
    ∀ us : List UserRow, k ∉ us.map (fun r => r.id) → joinedChildRows us db k = [] := by
  intro us
  induction us with
  | nil => intro _; rfl
  | cons u rest ih =>
    intro hk
    have hu : u.id ≠ k := by
      intro he
      exact hk (by simp [he])
    have hrest : k ∉ rest.map (fun r => r.id) := by
      intro hmem
      exact hk (by simp [hmem])
    show (((db.filter (fun r => r.user_id == u.id)).map (fun r => (u, r))
          ++ joinRows rest db).filter (fun p => p.1.id == k)).map (fun p => p.2) = []
    rw [List.filter_append, List.map_append]
    have h1 := headBlock_filter db u k
    rw [if_neg hu] at h1
    rw [h1]
    have h2 : joinedChildRows rest db k = [] := ih hrest
    unfold joinedChildRows at h2
    rw [h2]
    rfl

theorem joinedChildRows_eq_lazy (db : List AddrRow) (k : Nat) :
    ∀ us : List UserRow, ((us.map (fun r => r.id)).Nodup) →
      k ∈ us.map (fun r => r.id) → joinedChildRows us db k = lazyChildRows db k := by
  intro us
  induction us with
  | nil => intro _ hk; simp at hk
  | cons u rest ih =>
    intro hnd hk
    rw [List.map_cons] at hnd hk
    have hnd' := List.nodup_cons.mp hnd
    show (((db.filter (fun r => r.user_id == u.id)).map (fun r => (u, r))
          ++ joinRows rest db).filter (fun p => p.1.id == k)).map (fun p => p.2)
      = lazyChildRows db k
    rw [List.filter_append, List.map_append]
    by_cases hu : u.id = k
    · have h1 := headBlock_filter db u k
      rw [if_pos hu] at h1
      rw [h1]
      have h2 : joinedChildRows rest db k = [] := by
        apply joinedChildRows_nil_of_not_mem
        rw [← hu]
        exact hnd'.1
      unfold joinedChildRows at h2
      rw [h2, List.append_nil]
    · have h1 := headBlock_filter db u k
      rw [if_neg hu] at h1
      rw [h1]
      have hkr : k ∈ rest.map (fun r => r.id) := by
        rcases List.mem_cons.mp hk with h | h
        · exact absurd h.symm hu
        · exact h
      have h2 := ih hnd'.2 hkr
      unfold joinedChildRows at h2
      rw [List.nil_append, h2]

theorem lookupA_cons {β : Type} (x : ObjId × β) (l : List (ObjId × β)) (k : ObjId) :
    lookupA (x :: l) k = if x.1 == k then some x.2 else lookupA l k := by
  by_cases hx : (x.1 == k) = true
  · simp [lookupA, List.find?, hx]
  · have hx' : (x.1 == k) = false := by simpa using hx
    simp [lookupA, List.find?, hx']

theorem lookupA_imFrom (l : List ObjId) :
    ∀ (base i : Nat) (h : i < l.length),
      lookupA (imFrom base l) (base + i) = some (l.get ⟨i, h⟩) := by
  induction l with
  | nil => intro base i h; exact absurd h (by simp)
  | cons o os ih =>
    intro base i h
    cases i with
    | zero =>
      show lookupA ((base, o) :: imFrom (base + 1) os) (base + 0) = some o
      rw [lookupA_cons]
      simp
    | succ n =>
      have hn : n < os.length := by simpa using h
      have hne : ((base, o).1 == base + (n + 1)) = false := by
        simp
      have harith : base + (n + 1) = (base + 1) + n := by omega
      show lookupA ((base, o) :: imFrom (base + 1) os) (base + (n + 1)) = some (os.get ⟨n, hn⟩)
      rw [lookupA_cons, hne]
      simp only [Bool.false_eq_true, if_false]
      rw [harith]
      exact ih (base + 1) n hn

theorem reload_rows_eq (fkf : ObjId × Address → Nat) (k : Nat) :
    ∀ (pa : List (ObjId × Address)) (base : Nat) (im : List (Nat × ObjId)),
      (∀ i (h : i < pa.length), lookupA im (base + i) = some (pa.get ⟨i, h⟩).1) →
      ((addrRowsFrom fkf base pa).filter (fun r => r.user_id == k)).filterMap
          (fun r => lookupA im r.id)
        = (pa.filter (fun p => fkf p == k)).map (fun p => p.1) := by
  intro pa
  induction pa with
  | nil => intro base im _; rfl
  | cons p ps ih =>
    intro base im him
    have h0 : lookupA im base = some p.1 := by
      have := him 0 (by simp)
      simpa using this
    have him' : ∀ i (h : i < ps.length),
        lookupA im ((base + 1) + i) = some (ps.get ⟨i, h⟩).1 := by
      intro i hi
      have := him (i + 1) (by simpa using Nat.succ_lt_succ hi)
      have harith : base + (i + 1) = (base + 1) + i := by omega
      rw [harith] at this
      exact this
    have hih := ih (base + 1) im him'
    show ((({ id := base, email_address := p.2.email_address, user_id := fkf p } : AddrRow)
          :: addrRowsFrom fkf (base + 1) ps).filter (fun r => r.user_id == k)).filterMap
        (fun r => lookupA im r.id)
      = ((p :: ps).filter (fun q => fkf q == k)).map (fun q => q.1)
    rw [List.filter_cons, List.filter_cons]
    dsimp only
    by_cases hf : (fkf p == k) = true
    · rw [if_pos hf, if_pos hf, List.map_cons,
        List.filterMap_cons_some (b := p.1) (by exact h0), hih]
    · rw [if_neg hf, if_neg hf]
      exact hih

theorem filterMap_pair_fst {β : Type} (f : ObjId → Option β) :
    ∀ l : List ObjId,
      ((l.filterMap (fun o => (f o).map (fun v => (o, v)))).map (fun p => p.1))
        = l.filter (fun o => (f o).isSome) := by
  intro l
  induction l with
  | nil => rfl
  | cons o os ih =>
    rw [List.filterMap_cons, List.filter_cons]
    cases hf : f o with
    | none => simpa [hf] using ih
    | some v => simpa [hf] using ih

theorem pendingAddrPairs_fst_nodup (s : Session) :
    (s.pendingAddrPairs.map (fun p => p.1)).Nodup := by
  unfold Session.pendingAddrPairs
  rw [filterMap_pair_fst]
  exact (List.nodup_dedup s.pending).filter _

theorem userRows_ids_ge (l : List (ObjId × User)) :
    ∀ b x, x ∈ (userRowsFrom b l).map (fun r => r.id) → b ≤ x := by
  induction l with
  | nil => intro b x hx; simp [userRowsFrom] at hx
  | cons p ps ih =>
    intro b x hx
    have hx' : x ∈ ({ id := b, name := p.2.name, fullname := p.2.fullname } : UserRow).id
        :: (userRowsFrom (b + 1) ps).map (fun r => r.id) := hx
    rcases List.mem_cons.mp hx' with h | h
    · have hb : x = b := h
      omega
    · have := ih (b + 1) x h
      omega

theorem userRows_ids_nodup (l : List (ObjId × User)) :
    ∀ b, ((userRowsFrom b l).map (fun r => r.id)).Nodup := by
  induction l with
  | nil => intro b; simp [userRowsFrom]
  | cons p ps ih =>
    intro b
    show (b :: (userRowsFrom (b + 1) ps).map (fun r => r.id)).Nodup
    rw [List.nodup_cons]
    refine ⟨?_, ih (b + 1)⟩
    intro hmem
    have := userRows_ids_ge ps (b + 1) b hmem
    omega

theorem userRows_ids_mem (l : List (ObjId × User)) :
    ∀ b i, i < l.length → b + i ∈ (userRowsFrom b l).map (fun r => r.id) := by
  induction l with
  | nil => intro b i h; exact absurd h (by simp)
  | cons p ps ih =>
    intro b i h
    cases i with
    | zero =>
      show b + 0 ∈ (b :: (userRowsFrom (b + 1) ps).map (fun r => r.id))
      simp
    | succ n =>
      have hn : n < ps.length := by simpa using h
      have harith : b + (n + 1) = (b + 1) + n := by omega
      show b + (n + 1) ∈ (b :: (userRowsFrom (b + 1) ps).map (fun r => r.id))
      rw [harith]
      exact List.mem_cons_of_mem _ (ih (b + 1) n hn)

theorem fresh_user_id_none (s : Session) (h : freshGraph s = true) (w : ObjId) (v : User)
    (hv : s.graph.user? w = some v) : v.id = none := by
  unfold Graph.user? lookupA at hv
  cases hf : s.graph.users.find? (fun p => p.1 == w) with
  | none => rw [hf] at hv; simp at hv
  | some q =>
    rw [hf] at hv
    simp at hv
    have hqm := List.mem_of_find?_eq_some hf
    have hall := List.all_eq_true.mp h q hqm
    rw [← hv]
    simpa using hall

theorem lookupA_imFrom_fst (pa : List (ObjId × Address)) :
    ∀ (base i : Nat) (h : i < pa.length),
      lookupA (imFrom base (pa.map (fun p => p.1))) (base + i)
        = some (pa.get ⟨i, h⟩).1 := by
  induction pa with
  | nil => intro base i h; exact absurd h (by simp)
  | cons p ps ih =>
    intro base i h
    cases i with
    | zero =>
      show lookupA ((base, p.1) :: imFrom (base + 1) (ps.map (fun q => q.1))) (base + 0)
        = some p.1
      rw [lookupA_cons]
      simp
    | succ n =>
      have hn : n < ps.length := by simpa using h
      have hne : ((base, p.1).1 == base + (n + 1)) = false := by simp
      have harith : base + (n + 1) = (base + 1) + n := by omega
      show lookupA ((base, p.1) :: imFrom (base + 1) (ps.map (fun q => q.1)))
          (base + (n + 1)) = some (ps.get ⟨n, hn⟩).1
      rw [lookupA_cons, hne]
      simp only [Bool.false_eq_true, if_false]
      rw [harith]
      exact ih (base + 1) n hn

/-- C9: an entity owning a collection of children, committed and then
reloaded under any of the four loading strategies (deferred-per-parent,
batched-deferred, eager-join, explicit-join-reuse), yields a collection
holding the same multiset of child identities as the collection held
before the commit. -/
theorem roundtrip_collection (s : Session) (u : ObjId) (uo : User) (k : Nat)
    (hok : s.commit.result = Except.ok ())
    (hdbU : s.dbUsers = []) (hdbA : s.dbAddrs = []) (himA : s.imAddrs = [])
    (hu : s.graph.user? u = some uo)
    (hk : s.userKey u = some k)
    (hchild : childrenAttachedOk s u uo = true)
    (hstray : noStrayChildren s u uo = true)
    (hfresh : freshGraph s = true)
    (hnd : uo.addresses.Nodup) :
    ∀ strat, (s.commit.state.reloadChildren strat k).Perm uo.addresses := by
  obtain ⟨hco, hcond⟩ := commit_eq_ok s hok
  rw [hco]
  have hdb' : s.commitOk.state.dbAddrs
      = addrRowsFrom s.fkFun s.nextAddrKey s.pendingAddrPairs := by
    show s.dbAddrs ++ _ = _
    rw [hdbA, List.nil_append]
  have him' : s.commitOk.state.imAddrs
      = imFrom s.nextAddrKey (s.pendingAddrPairs.map (fun p => p.1)) := by
    show s.imAddrs ++ _ = _
    rw [himA, List.nil_append]
  have hdbU' : s.commitOk.state.dbUsers
      = userRowsFrom s.nextUserKey s.pendingUserPairs := by
    show s.dbUsers ++ _ = _
    rw [hdbU, List.nil_append]
  have hlook : ∀ i (h : i < s.pendingAddrPairs.length),
      lookupA s.commitOk.state.imAddrs (s.nextAddrKey + i)
        = some (s.pendingAddrPairs.get ⟨i, h⟩).1 := by
    intro i hi
    rw [him']
    exact lookupA_imFrom_fst s.pendingAddrPairs s.nextAddrKey i hi
  have hlazy : s.commitOk.state.reloadChildren LoadStrategy.lazyload k
      = (s.pendingAddrPairs.filter (fun p => s.fkFun p == k)).map (fun p => p.1) := by
    show ((s.commitOk.state.dbAddrs).filter (fun r => r.user_id == k)).filterMap
        (fun r => lookupA s.commitOk.state.imAddrs r.id) = _
    rw [hdb']
    exact reload_rows_eq s.fkFun k s.pendingAddrPairs s.nextAddrKey
      s.commitOk.state.imAddrs hlook
  have hkmem : k ∈ s.commitOk.state.dbUsers.map (fun r => r.id) := by
    rw [hdbU']
    unfold Session.userKey at hk
    cases hz : idxOfP (fun p => p.1 == u) s.pendingUserPairs with
    | none => rw [hz] at hk; simp at hk
    | some i =>
      rw [hz] at hk
      simp at hk
      obtain ⟨hi, _⟩ := idxOfP_get _ _ _ hz
      have hmm := userRows_ids_mem s.pendingUserPairs s.nextUserKey i hi
      rw [hk] at hmm
      exact hmm
  have hnodupIds : (s.commitOk.state.dbUsers.map (fun r => r.id)).Nodup := by
    rw [hdbU']
    exact userRows_ids_nodup s.pendingUserPairs s.nextUserKey
  have hall : ∀ strat, s.commitOk.state.reloadChildren strat k
      = s.commitOk.state.reloadChildren LoadStrategy.lazyload k := by
    intro strat
    cases strat with
    | lazyload => rfl
    | selectinload =>
      show ((selectinChildRows s.commitOk.state.dbAddrs
            (s.commitOk.state.dbUsers.map (fun r => r.id)) k).filterMap
          (fun r => lookupA s.commitOk.state.imAddrs r.id)) = _
      rw [selectin_eq_lazy _ _ _ hkmem]
      rfl
    | joinedload =>
      show ((joinedChildRows s.commitOk.state.dbUsers s.commitOk.state.dbAddrs k).filterMap
          (fun r => lookupA s.commitOk.state.imAddrs r.id)) = _
      rw [joinedChildRows_eq_lazy s.commitOk.state.dbAddrs k
        s.commitOk.state.dbUsers hnodupIds hkmem]
      rfl
    | contains_eager =>
      show ((joinedChildRows s.commitOk.state.dbUsers s.commitOk.state.dbAddrs k).filterMap
          (fun r => lookupA s.commitOk.state.imAddrs r.id)) = _
      rw [joinedChildRows_eq_lazy s.commitOk.state.dbAddrs k
        s.commitOk.state.dbUsers hnodupIds hkmem]
      rfl
  have hrefu : s.refKey u = some k := by
    unfold Session.refKey
    rw [hk]
  have hforward : ∀ q ∈ s.pendingAddrPairs, (s.fkFun q == k) = true →
      q.1 ∈ uo.addresses := by
    intro q hq hfkq
    obtain ⟨hqp, hqa⟩ := (mem_pendingAddrPairs_iff s q.1 q.2).mp hq
    have hsome : (s.addrFk q.1).isSome := by
      simpa using List.all_eq_true.mp hcond q hq
    obtain ⟨fk, hfk⟩ := Option.isSome_iff_exists.mp hsome
    have hfkk : fk = k := by
      unfold Session.fkFun at hfkq
      rw [hfk] at hfkq
      simpa using hfkq
    have hfk2 : s.addrFk q.1 = some k := by rw [hfk, hfkk]
    have hfk3 : q.2.user.bind (fun w => s.refKey w) = some k := by
      have h4 := hfk2
      unfold Session.addrFk at h4
      rw [hqa] at h4
      exact h4
    obtain ⟨w, hw, hrw⟩ := Option.bind_eq_some.mp hfk3
    have hwu : w = u := by
      cases hz : s.userKey w with
      | some kw =>
        have hkwk : kw = k := by
          have h5 := hrw
          unfold Session.refKey at h5
          rw [hz] at h5
          simpa using h5
        subst hkwk
        exact userKey_inj s w u kw hz hk
      | none =>
        have h5 := hrw
        unfold Session.refKey at h5
        rw [hz] at h5
        obtain ⟨v, hv, hvid⟩ := Option.bind_eq_some.mp h5
        have hvn := fresh_user_id_none s hfresh w v hv
        rw [hvn] at hvid
        simp at hvid
    subst hwu
    have hst := List.all_eq_true.mp hstray q.1 hqp
    simp [hqa, hw] at hst
    exact hst
  have hbackward : ∀ a ∈ uo.addresses,
      ∃ ao, (a, ao) ∈ s.pendingAddrPairs ∧ (s.fkFun (a, ao) == k) = true := by
    intro a ha
    have hc := List.all_eq_true.mp hchild a ha
    cases haq : s.graph.addr? a with
    | none => simp [haq] at hc
    | some ao =>
      simp [haq] at hc
      obtain ⟨huser, hpend⟩ := hc
      refine ⟨ao, (mem_pendingAddrPairs_iff s a ao).mpr ⟨hpend, haq⟩, ?_⟩
      have hfka : s.addrFk a = some k := by
        unfold Session.addrFk
        rw [haq]
        show ao.user.bind (fun w => s.refKey w) = some k
        rw [huser]
        show s.refKey u = some k
        exact hrefu
      unfold Session.fkFun
      rw [hfka]
      simp
  intro strat
  rw [hall strat, hlazy]
  have hnd1 : ((s.pendingAddrPairs.filter (fun p => s.fkFun p == k)).map
      (fun p => p.1)).Nodup := by
    have hsub : ((s.pendingAddrPairs.filter (fun p => s.fkFun p == k)).map
        (fun p => p.1)).Sublist (s.pendingAddrPairs.map (fun p => p.1)) :=
      List.Sublist.map _ (List.filter_sublist _)
    exact List.Nodup.sublist hsub (pendingAddrPairs_fst_nodup s)
  apply (List.perm_ext_iff_of_nodup hnd1 hnd).mpr
  intro a
  constructor
  · intro haL
    obtain ⟨q, hq, hqa2⟩ := List.mem_map.mp haL
    obtain ⟨hq1, hq2⟩ := List.mem_filter.mp hq
    rw [← hqa2]
    exact hforward q hq1 hq2
  · intro ha
    obtain ⟨ao, hmem, hfk⟩ := hbackward a ha
    exact List.mem_map.mpr ⟨(a, ao), List.mem_filter.mpr ⟨hmem, hfk⟩, rfl⟩

theorem roundtrip_collection_witness :
    demoAdded.commit.result = Except.ok ()
      ∧ demoAdded.dbUsers = [] ∧ demoAdded.dbAddrs = [] ∧ demoAdded.imAddrs = []
      ∧ demoAdded.graph.user? 0 = some demoU
      ∧ demoAdded.userKey 0 = some 1
      ∧ childrenAttachedOk demoAdded 0 demoU = true
      ∧ noStrayChildren demoAdded 0 demoU = true
      ∧ freshGraph demoAdded = true
      ∧ demoU.addresses.Nodup
      ∧ (demoAdded.commit.state.reloadChildren LoadStrategy.joinedload 1).Perm
          demoU.addresses :=
  ⟨by rfl, by rfl, by rfl, by rfl, by rfl, by rfl, by decide, by decide, by decide,
    by decide,
    roundtrip_collection demoAdded 0 demoU 1 (by rfl) (by rfl) (by rfl) (by rfl)
      (by rfl) (by rfl) (by decide) (by decide) (by decide) (by decide)
      LoadStrategy.joinedload⟩
